import Mathlib

/-!
Verification development for the apihandler repository.

The development embeds, over lists of characters, the pieces of the Go
source that the specification talks about:

* route compilation (`route.parse` in route.go): the path template is
  rewritten by replacing every `{name}` placeholder with the named group
  `(?P<name>.+)`, escaping `/` as `\/` and appending `$`.  We model the
  compiled regex as a list of `Piece`s (literal characters and named
  `.+` groups); `compileTemplate` performs the same left-to-right scan as
  the Go replacement.  It conservatively returns `none` whenever the Go
  pipeline would fail to compile (bad group names, duplicate group names)
  and also on templates whose literal text contains regex metacharacters,
  so that a `some` result always describes the regex Go would build.
* regex matching as Go `regexp` performs it for regexes of this shape:
  unanchored at the start, anchored at the end by `$`, where `.+` greedily
  matches one or more characters other than a newline, and submatches are
  computed leftmost-first (`matchString`, `capturesFull`, `findSubmatch`).
* `route.match` and `route.decodeArgs` from route.go (`routeMatch`,
  `decodeArgs`).
* the token rate limiter from rate_limiter.go (`client`, `RateLimiter`,
  `allow`, `cleanupTick`); the mutex and goroutine plumbing is replaced by
  explicit state passing, and `time.Now` by an explicit `now` argument.
* route registration from handler.go (`handleFunc`, `supportedMethods`).
-/

namespace Apihandler

/-- A piece of the compiled route regex: a literal character, or a named
group `(?P<name>.+)` produced from a `{name}` placeholder. -/
inductive Piece where
  | lit (c : Char)
  | grp (name : List Char)
deriving DecidableEq, Repr

/-- Characters Go regexp accepts inside a group name `(?P<name>...)`:
ASCII letters, digits and underscore. -/
def wordChar (c : Char) : Bool :=
  c.isAlpha || c.isDigit || c == '_'

/-- Characters that stand for themselves in a Go regex.  Regex
metacharacters are excluded: a template containing them would compile to
a regex whose meaning is not the literal character, so `compileTemplate`
rejects such templates (see its docstring). -/
def plainChar (c : Char) : Bool :=
  !(c == '.' || c == '+' || c == '*' || c == '?' || c == '(' || c == ')' ||
    c == '|' || c == '[' || c == ']' || c == '{' || c == '}' || c == '^' ||
    c == '$' || c == '\\')

/-- Names of the groups of a compiled route regex, in order; this is what
Go `SubexpNames()[1:]` returns for the regexes built by `route.parse`. -/
def params : List Piece → List (List Char)
  | [] => []
  | Piece.lit _ :: r => params r
  | Piece.grp n :: r => n :: params r

/-- State of the left-to-right template scan: whether compilation has
failed, the partially read group name (reversed) when inside `{...}`,
and the pieces emitted so far (reversed). -/
structure ScanSt where
  ok : Bool
  mode : Option (List Char)
  pieces : List Piece
deriving DecidableEq, Repr

/-- One step of the template scan, mirroring how the Go replacement of
the pattern `(?U)\{(?P<arg_name>.+)\}` walks the template: outside
braces, `{` opens a group and a plain character is emitted literally;
inside braces, word characters accumulate into the name and the first
`}` closes the group (the inner match is ungreedy).  Anything that would
make Go regexp compilation fail, or would put a metacharacter into the
regex, sets `ok := false`. -/
def scanStep (st : ScanSt) (c : Char) : ScanSt :=
  if st.ok = false then st
  else
    match st.mode with
    | none =>
      if c = '{' then { st with mode := some [] }
      else if plainChar c then { st with pieces := Piece.lit c :: st.pieces }
      else { st with ok := false }
    | some acc =>
      if c = '}' then
        if acc = [] then { st with ok := false }
        else { st with mode := none, pieces := Piece.grp acc.reverse :: st.pieces }
      else if wordChar c then { st with mode := some (c :: acc) }
      else { st with ok := false }

/-- Model of `route.parse` from route.go: compile a path template to the
piece list of its regex.  Returns `none` when Go regexp compilation of
the produced pattern would fail (ill-formed or empty `{...}` groups,
non-word characters in a group name, duplicate group names) and, in
addition, on templates whose literal text contains a regex metacharacter
(Go would compile those, but to a regex not described by a piece list,
so they are outside this model). -/
def compileTemplate (t : List Char) : Option (List Piece) :=
  let st := t.foldl scanStep ⟨true, none, []⟩
  if st.ok = true ∧ st.mode = none ∧ (params st.pieces.reverse).Nodup then
    some st.pieces.reverse
  else none

/-- Regex text of one piece, as it appears in `r.rgx.String()`: the
escaping of `/` as `\/` follows `route.parse`. -/
def pieceStr : Piece → List Char
  | Piece.lit c => if c == '/' then ['\\', '/'] else [c]
  | Piece.grp n => ['(', '?', 'P', '<'] ++ n ++ ['>', '.', '+', ')']

/-- Concatenated regex text of a piece list. -/
def rgxBody : List Piece → List Char
  | [] => []
  | p :: r => pieceStr p ++ rgxBody r

/-- The full text `r.rgx.String()` of the compiled route regex: the body
followed by the `$` appended by `route.parse`. -/
def rgxString (r : List Piece) : List Char :=
  rgxBody r ++ ['$']

/-- Model of `strings.CutSuffix(s, "/")` as used by `route.match` and
`route.decodeArgs`: drop one trailing slash if present. -/
def cutSuffix (s : List Char) : List Char :=
  if s.getLast? = some '/' then s.dropLast else s

/-- Does the piece list match exactly the given string?  A literal piece
consumes its character; a group piece consumes one or more characters,
none of which is a newline, exactly as `.+` does in Go regexp. -/
def matchesFull : List Piece → List Char → Bool
  | [], [] => true
  | [], _ :: _ => false
  | Piece.lit _ :: _, [] => false
  | Piece.lit c :: r, c' :: s => c == c' && matchesFull r s
  | Piece.grp _ :: _, [] => false
  | Piece.grp n :: r, c :: s =>
    !(c == '\n') && (matchesFull r s || matchesFull (Piece.grp n :: r) s)

/-- Model of Go `rgx.MatchString` for the regexes built by `route.parse`:
the pattern is unanchored at the start and anchored at the end by `$`,
so it matches the string iff it fully matches some suffix. -/
def matchString (r : List Piece) : List Char → Bool
  | [] => matchesFull r []
  | c :: s => matchesFull r (c :: s) || matchString r s

/-- Model of `route.match` from route.go: compare the slash count of the
trailing-slash-normalized URI with the slash count of the regex text,
and run the regex on the raw URI. -/
def routeMatch (r : List Piece) (requestURI : List Char) : Bool :=
  let uri := cutSuffix requestURI
  let lenURI := uri.count '/'
  let lenRgx := (rgxString r).count '/'
  lenURI == lenRgx && matchString r requestURI

/-- Captures of the piece list against exactly the given string, with Go
backtracking preference: `.+` is greedy, so longer captures are tried
first.  Returns the list of group captures in group order, or `none`
when there is no match. -/
def capturesFull : List Piece → List Char → Option (List (List Char))
  | [], [] => some []
  | [], _ :: _ => none
  | Piece.lit _ :: _, [] => none
  | Piece.lit c :: r, c' :: s => if c == c' then capturesFull r s else none
  | Piece.grp _ :: _, [] => none
  | Piece.grp n :: r, c :: s =>
    if c == '\n' then none
    else
      match capturesFull (Piece.grp n :: r) s with
      | some (cap :: caps) => some ((c :: cap) :: caps)
      | _ =>
        match capturesFull r s with
        | some caps => some ([c] :: caps)
        | none => none

/-- Model of Go `rgx.FindStringSubmatch` for these regexes: the leftmost
starting position wins, the match runs to the end of the string because
of `$`; returns the whole matched text and the group captures. -/
def findSubmatch (r : List Piece) : List Char → Option (List Char × List (List Char))
  | [] =>
    match capturesFull r [] with
    | some caps => some ([], caps)
    | none => none
  | c :: s =>
    match capturesFull r (c :: s) with
    | some caps => some (c :: s, caps)
    | none => findSubmatch r s

/-- Model of Go `rgx.SubexpNames()` for these regexes: the empty name of
the whole-match entry at index 0 followed by the group names. -/
def subexpNames (r : List Piece) : List (List Char) :=
  [] :: params r

/-- Model of `route.decodeArgs` from route.go: reject when `route.match`
rejects, then run `FindStringSubmatch` on the trailing-slash-stripped
URI; on success bind every subexpression name, including the unnamed
whole-match entry, to its captured text.  `none` models the Go return
`(nil, false)`; the association list built by `List.zip` models the Go
map filled in index order. -/
def decodeArgs (r : List Piece) (requestURI : List Char) :
    Option (List (List Char × List Char)) :=
  if routeMatch r requestURI then
    match findSubmatch r (cutSuffix requestURI) with
    | some (whole, caps) => some (List.zip (subexpNames r) (whole :: caps))
    | none => none
  else none

/-- Per-client record of the rate limiter in rate_limiter.go: the number
of tokens consumed and the time the entry was created or last reset
(field `age` in the source; the spec calls it lastSeen). -/
structure client where
  tokens : Int
  age : Int
deriving DecidableEq, Repr

/-- State of the RateLimiter from rate_limiter.go.  The client map is a
function from client identity to an optional entry; the context, cancel
function and mutex of the source are concurrency plumbing with no effect
on the per-call state transition and are not part of the state. -/
structure RateLimiter where
  clients : String → Option client
  maxTokens : Int
  interval : Int

/-- Map assignment `rl.clients[ip] = cl` (in-place mutation of the entry
pointed to by the map behaves the same way). -/
def setClient (rl : RateLimiter) (ip : String) (cl : client) : RateLimiter :=
  { rl with clients := fun k => if k == ip then some cl else rl.clients k }

/-- The limiter as `NewRateLimiter` creates it: empty client map. -/
def newRateLimiter (maxTokens interval : Int) : RateLimiter :=
  ⟨fun _ => none, maxTokens, interval⟩

/-- Model of `RateLimiter.Allow` from rate_limiter.go, with `time.Now()`
passed explicitly as `now` and the client identity already derived from
the request.  Returns the admission decision and the successor state. -/
def allow (rl : RateLimiter) (now : Int) (ip : String) : Bool × RateLimiter :=
  match rl.clients ip with
  | none => (true, setClient rl ip ⟨1, now⟩)
  | some cl =>
    if cl.tokens < rl.maxTokens then
      (true, setClient rl ip { cl with tokens := cl.tokens + 1 })
    else if now - cl.age > rl.interval then
      (true, setClient rl ip ⟨1, now⟩)
    else
      (false, rl)

/-- Model of one tick of the `cleanup` goroutine of rate_limiter.go at
time `now`: delete every entry older than the interval. -/
def cleanupTick (rl : RateLimiter) (now : Int) : RateLimiter :=
  { rl with clients := fun k =>
      match rl.clients k with
      | some cl => if now - cl.age > rl.interval then none else some cl
      | none => none }

/-- An observable step on the limiter state: an `Allow` call or a sweep
tick, each at an explicit time. -/
inductive RLOp where
  | allowAt (now : Int) (ip : String)
  | sweepAt (now : Int)

/-- Apply one step to the limiter state. -/
def applyOp (rl : RateLimiter) : RLOp → RateLimiter
  | .allowAt now ip => (allow rl now ip).2
  | .sweepAt now => cleanupTick rl now

/-- Run a sequence of steps; the reachable limiter states are exactly
the results of `runOps` from `newRateLimiter`. -/
def runOps (rl : RateLimiter) : List RLOp → RateLimiter
  | [] => rl
  | op :: ops => runOps (applyOp rl op) ops

/-- Results of consecutive `Allow` calls for one client at the given
times. -/
def allowRun (rl : RateLimiter) (ip : String) : List Int → List Bool
  | [] => []
  | t :: ts =>
    let res := allow rl t ip
    res.1 :: allowRun res.2 ip ts

/-- A registered route of handler.go: method, original template string,
compiled regex (as its piece list) and the opaque handler value. -/
structure route (α : Type) where
  method : String
  path : String
  rgx : List Piece
  handler : α
deriving DecidableEq

/-- The list of HTTP methods accepted by `HandleFunc` (handler.go). -/
def supportedMethods : List String :=
  ["GET", "HEAD", "POST", "PUT", "PATCH", "DELETE", "CONNECT", "OPTIONS", "TRACE"]

/-- The overwrite loop of `HandleFunc`: replace the first route with the
same method and path, or report that none exists. -/
def replaceRoute {α : Type} (nr : route α) : List (route α) → Option (List (route α))
  | [] => none
  | r :: rs =>
    if r.method == nr.method && r.path == nr.path then some (nr :: rs)
    else (replaceRoute nr rs).map (r :: ·)

/-- Model of `Handler.HandleFunc` from handler.go: reject unsupported
methods, compile the template, then replace in place the route with the
same method and path or append a new one.  The boolean is true on the
`return nil` paths of the source; on the error paths the route table is
returned unchanged. -/
def handleFunc {α : Type} (routes : List (route α)) (method path : String)
    (handler : α) : List (route α) × Bool :=
  if supportedMethods.contains method then
    match compileTemplate path.toList with
    | none => (routes, false)
    | some rgx =>
      let nr : route α := ⟨method, path, rgx, handler⟩
      match replaceRoute nr routes with
      | some rs => (rs, true)
      | none => (routes ++ [nr], true)
  else (routes, false)

/-- Number of path segments of a slash-separated string: splitting on
the separator yields one more part than there are separators. -/
def segCount (s : List Char) : Nat :=
  s.count '/' + 1

/-- The empty piece list matches only the empty string. -/
theorem matchesFull_nil_iff (s : List Char) :
    matchesFull [] s = true ↔ s = [] := by
  cases s <;> simp [matchesFull]

/-- A leading literal piece consumes exactly its character. -/
theorem matchesFull_lit_iff (c : Char) (r : List Piece) (s : List Char) :
    matchesFull (Piece.lit c :: r) s = true ↔
      ∃ s', s = c :: s' ∧ matchesFull r s' = true := by
  cases s with
  | nil => simp [matchesFull]
  | cons a s =>
    simp only [matchesFull, Bool.and_eq_true, beq_iff_eq, List.cons.injEq]
    constructor
    · rintro ⟨rfl, h⟩
      exact ⟨s, ⟨rfl, rfl⟩, h⟩
    · rintro ⟨s', ⟨rfl, rfl⟩, h⟩
      exact ⟨rfl, h⟩

/-- A leading group piece consumes a nonempty run of non-newline
characters. -/
theorem matchesFull_grp_iff (n : List Char) (r : List Piece) :
    ∀ s, matchesFull (Piece.grp n :: r) s = true ↔
      ∃ a b, s = a ++ b ∧ a ≠ [] ∧ (∀ x ∈ a, x ≠ '\n') ∧
        matchesFull r b = true := by
  intro s
  induction s with
  | nil =>
    simp only [matchesFull, Bool.false_eq_true, false_iff]
    rintro ⟨a, b, heq, ha, -, -⟩
    rcases List.append_eq_nil.mp heq.symm with ⟨rfl, -⟩
    exact ha rfl
  | cons c s ih =>
    simp only [matchesFull, Bool.and_eq_true, Bool.or_eq_true,
      Bool.not_eq_true', beq_eq_false_iff_ne]
    constructor
    · rintro ⟨hc, h | h⟩
      · exact ⟨[c], s, rfl, by simp, by simpa using hc, h⟩
      · rcases ih.mp h with ⟨a, b, rfl, ha, hclean, hb⟩
        refine ⟨c :: a, b, rfl, by simp, ?_, hb⟩
        intro x hx
        rcases List.mem_cons.mp hx with rfl | hx
        · exact hc
        · exact hclean x hx
    · rintro ⟨a, b, heq, ha, hclean, hb⟩
      cases a with
      | nil => exact absurd rfl ha
      | cons x a =>
        rw [List.cons_append] at heq
        injection heq with h1 h2
        subst h1; subst h2
        refine ⟨hclean c (by simp), ?_⟩
        cases a with
        | nil => exact Or.inl (by simpa using hb)
        | cons y a =>
          refine Or.inr (ih.mpr ⟨y :: a, b, rfl, by simp, ?_, hb⟩)
          intro x hx
          exact hclean x (List.mem_cons_of_mem _ hx)

/-- Matching a concatenation of piece lists splits the string. -/
theorem matchesFull_append (q r : List Piece) :
    ∀ s, matchesFull (q ++ r) s = true ↔
      ∃ u v, s = u ++ v ∧ matchesFull q u = true ∧ matchesFull r v = true := by
  induction q with
  | nil =>
    intro s
    constructor
    · intro h
      exact ⟨[], s, rfl, rfl, by simpa using h⟩
    · rintro ⟨u, v, rfl, hu, hv⟩
      rcases matchesFull_nil_iff u |>.mp hu with rfl
      simpa using hv
  | cons p q ih =>
    intro s
    cases p with
    | lit c =>
      rw [List.cons_append, matchesFull_lit_iff]
      constructor
      · rintro ⟨s', rfl, h⟩
        rcases (ih s').mp h with ⟨u, v, rfl, hq, hr⟩
        exact ⟨c :: u, v, rfl, (matchesFull_lit_iff c q (c :: u)).mpr ⟨u, rfl, hq⟩, hr⟩
      · rintro ⟨u, v, rfl, hq, hr⟩
        rcases (matchesFull_lit_iff c q u).mp hq with ⟨u', rfl, hq'⟩
        exact ⟨u' ++ v, rfl, (ih (u' ++ v)).mpr ⟨u', v, rfl, hq', hr⟩⟩
    | grp n =>
      rw [List.cons_append, matchesFull_grp_iff]
      constructor
      · rintro ⟨a, b, rfl, ha, hclean, h⟩
        rcases (ih b).mp h with ⟨u, v, rfl, hq, hr⟩
        exact ⟨a ++ u, v, (List.append_assoc a u v).symm,
          (matchesFull_grp_iff n q (a ++ u)).mpr ⟨a, u, rfl, ha, hclean, hq⟩, hr⟩
      · rintro ⟨u, v, rfl, hq, hr⟩
        rcases (matchesFull_grp_iff n q u).mp hq with ⟨a, u', rfl, ha, hclean, hq'⟩
        exact ⟨a, u' ++ v, List.append_assoc a u' v,
          ha, hclean, (ih (u' ++ v)).mpr ⟨u', v, rfl, hq', hr⟩⟩

/-- MatchString holds iff some suffix matches the pieces fully, which is
exactly how the `$`-anchored, start-unanchored regex behaves. -/
theorem matchString_iff (r : List Piece) :
    ∀ s, matchString r s = true ↔
      ∃ u v, s = u ++ v ∧ matchesFull r v = true := by
  intro s
  induction s with
  | nil =>
    constructor
    · intro h
      exact ⟨[], [], rfl, h⟩
    · rintro ⟨u, v, heq, h⟩
      rcases List.append_eq_nil.mp heq.symm with ⟨rfl, rfl⟩
      exact h
  | cons c s ih =>
    simp only [matchString, Bool.or_eq_true, ih]
    constructor
    · rintro (h | ⟨u, v, rfl, h⟩)
      · exact ⟨[], c :: s, rfl, h⟩
      · exact ⟨c :: u, v, rfl, h⟩
    · rintro ⟨u, v, heq, h⟩
      cases u with
      | nil =>
        have hv : v = c :: s := by simpa using heq.symm
        subst hv
        exact Or.inl h
      | cons x u =>
        rw [List.cons_append] at heq
        injection heq with h1 h2
        subst h1; subst h2
        exact Or.inr ⟨u, v, rfl, h⟩

/-- A nonempty piece list never matches the empty string. -/
theorem matchesFull_ne_nil (r : List Piece) (hr : r ≠ []) :
    matchesFull r [] = false := by
  cases r with
  | nil => exact absurd rfl hr
  | cons p r => cases p <;> rfl

/-- Captures exist in the same situations in which the boolean matcher
succeeds, one direction. -/
theorem capturesFull_length (r : List Piece) :
    ∀ s caps, capturesFull r s = some caps → caps.length = (params r).length := by
  induction r with
  | nil =>
    intro s caps h
    cases s with
    | nil => simp [capturesFull] at h; simp [← h, params]
    | cons c s => simp [capturesFull] at h
  | cons p r ih =>
    cases p with
    | lit c =>
      intro s caps h
      cases s with
      | nil => simp [capturesFull] at h
      | cons c' s =>
        by_cases hc : c = c'
        · rw [show params (Piece.lit c :: r) = params r from rfl]
          refine ih s caps ?_
          simpa [capturesFull, hc] using h
        · simp [capturesFull, hc] at h
    | grp n =>
      intro s
      induction s with
      | nil => intro caps h; simp [capturesFull] at h
      | cons c s ihs =>
        intro caps h
        by_cases hnl : c = '\n'
        · simp [capturesFull, hnl] at h
        · rw [capturesFull] at h
          simp only [hnl, if_neg, beq_iff_eq, if_false] at h
          rcases hrec : capturesFull (Piece.grp n :: r) s with - | caps'
          · rw [hrec] at h
            rcases hrec2 : capturesFull r s with - | caps2
            · rw [hrec2] at h; exact absurd h (by simp)
            · rw [hrec2] at h
              have := ih s caps2 hrec2
              injection h with h'
              rw [← h']
              simp [params, this]
          · rw [hrec] at h
            cases caps' with
            | nil =>
              have := ihs [] hrec
              simp [params] at this
            | cons cap caps' =>
              have := ihs (cap :: caps') hrec
              injection h with h'
              rw [← h']
              simpa [params] using this

/-- The backtracking capture search succeeds exactly when the boolean
matcher does. -/
theorem capturesFull_isSome (r : List Piece) :
    ∀ s, (capturesFull r s).isSome = matchesFull r s := by
  induction r with
  | nil =>
    intro s
    cases s <;> simp [capturesFull, matchesFull]
  | cons p r ih =>
    cases p with
    | lit c =>
      intro s
      cases s with
      | nil => simp [capturesFull, matchesFull]
      | cons c' s =>
        by_cases hc : c = c'
        · simp [capturesFull, matchesFull, hc, ih s]
        · simp [capturesFull, matchesFull, hc, Ne.symm hc]
    | grp n =>
      intro s
      induction s with
      | nil => simp [capturesFull, matchesFull]
      | cons c s ihs =>
        by_cases hnl : c = '\n'
        · simp [capturesFull, matchesFull, hnl]
        · rw [capturesFull, matchesFull]
          simp only [hnl, if_neg, if_false, beq_iff_eq, Bool.not_eq_true',
            beq_eq_false_iff_ne, ne_eq]
          rcases hrec : capturesFull (Piece.grp n :: r) s with - | caps'
          · have hm : matchesFull (Piece.grp n :: r) s = false := by
              rw [← ihs, hrec]; rfl
            rcases hrec2 : capturesFull r s with - | caps2
            · have hm2 : matchesFull r s = false := by
                rw [← ih s, hrec2]; rfl
              simp [hm, hm2, hnl]
            · have hm2 : matchesFull r s = true := by
                rw [← ih s, hrec2]; rfl
              simp [hm, hm2, hnl]
          · have hm : matchesFull (Piece.grp n :: r) s = true := by
              rw [← ihs, hrec]; rfl
            cases caps' with
            | nil =>
              have := capturesFull_length (Piece.grp n :: r) s [] hrec
              simp [params] at this
            | cons cap caps' => simp [hm, hnl]

/-- Every capture produced by the search is nonempty: the groups come
from the one-or-more pattern `.+`. -/
theorem capturesFull_nonempty (r : List Piece) :
    ∀ s caps, capturesFull r s = some caps → ∀ cp ∈ caps, cp ≠ [] := by
  induction r with
  | nil =>
    intro s caps h
    cases s with
    | nil =>
      simp only [capturesFull, Option.some.injEq] at h
      simp [← h]
    | cons c s => simp [capturesFull] at h
  | cons p r ih =>
    cases p with
    | lit c =>
      intro s caps h
      cases s with
      | nil => simp [capturesFull] at h
      | cons c' s =>
        by_cases hc : c = c'
        · exact ih s caps (by simpa [capturesFull, hc] using h)
        · simp [capturesFull, hc] at h
    | grp n =>
      intro s
      induction s with
      | nil => intro caps h; simp [capturesFull] at h
      | cons c s ihs =>
        intro caps h
        by_cases hnl : c = '\n'
        · simp [capturesFull, hnl] at h
        · rw [capturesFull] at h
          simp only [hnl, if_neg, if_false, beq_iff_eq] at h
          rcases hrec : capturesFull (Piece.grp n :: r) s with - | caps'
          · rw [hrec] at h
            rcases hrec2 : capturesFull r s with - | caps2
            · rw [hrec2] at h; exact absurd h (by simp)
            · rw [hrec2] at h
              injection h with h'
              subst h'
              intro cp hcp
              rcases List.mem_cons.mp hcp with rfl | hcp
              · simp
              · exact ih s caps2 hrec2 cp hcp
          · rw [hrec] at h
            cases caps' with
            | nil =>
              have := capturesFull_length (Piece.grp n :: r) s [] hrec
              simp [params] at this
            | cons cap caps' =>
              injection h with h'
              subst h'
              intro cp hcp
              rcases List.mem_cons.mp hcp with rfl | hcp
              · simp
              · exact ihs (cap :: caps') hrec cp (List.mem_cons_of_mem _ hcp)

/-- FindStringSubmatch succeeds exactly when MatchString does. -/
theorem findSubmatch_isSome (r : List Piece) :
    ∀ s, (findSubmatch r s).isSome = matchString r s := by
  intro s
  induction s with
  | nil =>
    rw [findSubmatch, matchString, ← capturesFull_isSome]
    rcases h : capturesFull r [] with - | caps <;> simp [h]
  | cons c s ih =>
    rw [findSubmatch, matchString, ← capturesFull_isSome]
    rcases h : capturesFull r (c :: s) with - | caps <;> simp [h, ih]

/-- The whole text returned by FindStringSubmatch is matched by the
pieces with exactly the returned captures. -/
theorem findSubmatch_captures (r : List Piece) :
    ∀ s w caps, findSubmatch r s = some (w, caps) →
      capturesFull r w = some caps := by
  intro s
  induction s with
  | nil =>
    intro w caps h
    rw [findSubmatch] at h
    rcases hc : capturesFull r [] with - | caps'
    · rw [hc] at h; exact absurd h (by simp)
    · rw [hc] at h
      injection h with h'
      injection h' with h1 h2
      subst h1; subst h2
      exact hc
  | cons c s ih =>
    intro w caps h
    rw [findSubmatch] at h
    rcases hc : capturesFull r (c :: s) with - | caps'
    · rw [hc] at h
      exact ih w caps h
    · rw [hc] at h
      injection h with h'
      injection h' with h1 h2
      subst h1; subst h2
      exact hc

/-- Stripping the suffix slash from a string that ends in one. -/
theorem cutSuffix_concat (p : List Char) : cutSuffix (p ++ ['/']) = p := by
  simp [cutSuffix]

/-- A string not ending in a slash is left unchanged. -/
theorem cutSuffix_of_not_slash (p : List Char) (h : p.getLast? ≠ some '/') :
    cutSuffix p = p := by
  simp [cutSuffix, h]

/-- Number of slashes contributed by the literal pieces. -/
def litSlash : List Piece → Nat
  | [] => 0
  | Piece.lit c :: r => (if c = '/' then 1 else 0) + litSlash r
  | Piece.grp _ :: r => litSlash r

/-- Group names split over concatenation. -/
theorem params_append (a b : List Piece) :
    params (a ++ b) = params a ++ params b := by
  induction a with
  | nil => rfl
  | cons p a ih => cases p <;> simp [params, ih]

/-- Group names of the reversed piece list. -/
theorem params_reverse (r : List Piece) :
    params r.reverse = (params r).reverse := by
  induction r with
  | nil => rfl
  | cons p r ih => cases p <;> simp [params, params_append, ih]

/-- Literal slash count splits over concatenation. -/
theorem litSlash_append (a b : List Piece) :
    litSlash (a ++ b) = litSlash a + litSlash b := by
  induction a with
  | nil => simp [litSlash]
  | cons p a ih => cases p <;> simp [litSlash, ih] <;> omega

/-- Literal slash count of the reversed piece list. -/
theorem litSlash_reverse (r : List Piece) :
    litSlash r.reverse = litSlash r := by
  induction r with
  | nil => rfl
  | cons p r ih => cases p <;> simp [litSlash, litSlash_append, ih] <;> omega

/-- The regex text of a piece list whose group names are made of word
characters contains exactly the slashes of its literal slash pieces. -/
theorem rgxBody_count (r : List Piece)
    (hclean : ∀ n ∈ params r, ∀ c ∈ n, wordChar c = true) :
    (rgxBody r).count '/' = litSlash r := by
  induction r with
  | nil => rfl
  | cons p r ih =>
    have ihr : (rgxBody r).count '/' = litSlash r := by
      refine ih ?_
      intro n hn
      cases p with
      | lit c => exact hclean n hn
      | grp m => exact hclean n (by simp [params, hn])
    cases p with
    | lit c =>
      by_cases hc : c = '/'
      · simp only [rgxBody, pieceStr, hc, if_pos rfl, List.count_append, ihr,
          litSlash]
        simp [List.count_cons]
      · simp only [rgxBody, pieceStr, if_neg hc, List.count_append, ihr,
          litSlash, if_neg hc]
        simp [List.count_cons, hc]
    | grp n =>
      have hn : ∀ c ∈ n, wordChar c = true := hclean n (by simp [params])
      have hslash : n.count '/' = 0 := by
        rw [List.count_eq_zero]
        intro hmem
        have := hn '/' hmem
        simp [wordChar] at this
      simp [rgxBody, pieceStr, List.count_append, ihr, litSlash, hslash,
        List.count_cons]

/-- Once the scan has failed it stays failed and frozen. -/
theorem foldl_scanStep_frozen (t : List Char) :
    ∀ st : ScanSt, st.ok = false → t.foldl scanStep st = st := by
  induction t with
  | nil => intro st _; rfl
  | cons c t ih =>
    intro st h
    have hstep : scanStep st c = st := by
      simp [scanStep, h]
    rw [List.foldl_cons, hstep, ih st h]

/-- One scan step keeps the literal slash count in lockstep with the
slash count of the consumed character, unless the step fails. -/
theorem scanStep_slash (st : ScanSt) (c : Char) (hok : st.ok = true)
    (hres : (scanStep st c).ok = true) :
    litSlash (scanStep st c).pieces =
      litSlash st.pieces + (if c = '/' then 1 else 0) := by
  rw [scanStep] at hres ⊢
  simp only [hok, Bool.true_eq_false, if_false] at hres ⊢
  rcases hmd : st.mode with - | acc <;> simp only [hmd] at hres ⊢
  · by_cases hbr : c = '{'
    · have : ¬(c = '/') := by rw [hbr]; decide
      simp [hbr, this]
    · by_cases hpl : plainChar c = true
      · simp [hbr, hpl, litSlash]
        omega
      · simp [hbr, hpl] at hres
  · by_cases hbr : c = '}'
    · by_cases hemp : acc = []
      · simp [hbr, hemp] at hres
      · have : ¬(c = '/') := by rw [hbr]; decide
        simp [hbr, hemp, this, litSlash]
    · by_cases hw : wordChar c = true
      · have : ¬(c = '/') := by
          intro h
          rw [h] at hw
          simp [wordChar] at hw
        simp [hbr, hw, this]
      · simp [hbr, hw] at hres

/-- A scan step from a failed-or-alive state is alive only if the source
state was alive. -/
theorem scanStep_ok (st : ScanSt) (c : Char)
    (hres : (scanStep st c).ok = true) : st.ok = true := by
  by_cases h : st.ok = false
  · rw [scanStep, if_pos h] at hres
    rw [hres] at h
    exact absurd h (by simp)
  · revert h; cases st.ok <;> simp

/-- If the scan of `t` from `st` ends accepted with all braces closed,
the literal slash pieces grow by exactly the slashes of `t`: slashes
never occur inside an accepted brace group. -/
theorem foldl_scanStep_slash (t : List Char) :
    ∀ st : ScanSt, (t.foldl scanStep st).ok = true →
      litSlash (t.foldl scanStep st).pieces = litSlash st.pieces + t.count '/' := by
  induction t with
  | nil => intro st _; simp
  | cons c t ih =>
    intro st hok
    rw [List.foldl_cons] at hok ⊢
    have hres : (scanStep st c).ok = true := by
      by_cases h : (scanStep st c).ok = false
      · rw [foldl_scanStep_frozen t _ h] at hok
        rw [hok] at h
        exact absurd h (by simp)
      · revert h; cases (scanStep st c).ok <;> simp
    have hstok : st.ok = true := scanStep_ok st c hres
    rw [ih _ hok, scanStep_slash st c hstok hres]
    simp [List.count_cons]
    by_cases hc : c = '/'
    · simp [hc]
      omega
    · have : ¬('/' = c) := fun h => hc h.symm
      simp [hc, this]

/-- One scan step preserves cleanliness of the emitted group names and
of the partially read name. -/
theorem scanStep_clean (st : ScanSt) (c : Char)
    (h1 : ∀ n ∈ params st.pieces, ∀ ch ∈ n, wordChar ch = true)
    (h2 : ∀ acc, st.mode = some acc → ∀ ch ∈ acc, wordChar ch = true) :
    (∀ n ∈ params (scanStep st c).pieces, ∀ ch ∈ n, wordChar ch = true) ∧
    (∀ acc, (scanStep st c).mode = some acc → ∀ ch ∈ acc, wordChar ch = true) := by
  by_cases hstok : st.ok = false
  · have hstep : scanStep st c = st := by simp [scanStep, hstok]
    rw [hstep]
    exact ⟨h1, h2⟩
  · rcases hmd : st.mode with - | acc
    · by_cases hbr : c = '{'
      · have hstep : scanStep st c = { st with mode := some [] } := by
          simp [scanStep, hstok, hmd, hbr]
        rw [hstep]
        refine ⟨h1, ?_⟩
        intro acc' h
        injection h with h'
        subst h'
        intro ch hch
        exact absurd hch (by simp)
      · by_cases hpl : plainChar c = true
        · have hstep : scanStep st c =
              { st with pieces := Piece.lit c :: st.pieces } := by
            simp [scanStep, hstok, hmd, hbr, hpl]
          rw [hstep]
          exact ⟨h1, fun acc' h => h2 acc' h⟩
        · have hstep : scanStep st c = { st with ok := false } := by
            simp [scanStep, hstok, hmd, hbr, hpl]
          rw [hstep]
          exact ⟨h1, fun acc' h => h2 acc' h⟩
    · by_cases hbr : c = '}'
      · by_cases hemp : acc = []
        · have hstep : scanStep st c = { st with ok := false } := by
            simp [scanStep, hstok, hmd, hbr, hemp]
          rw [hstep]
          exact ⟨h1, fun acc' h => h2 acc' h⟩
        · have hstep : scanStep st c = { st with mode := none, pieces := Piece.grp acc.reverse :: st.pieces } := by
            simp [scanStep, hstok, hmd, hbr, hemp]
          rw [hstep]
          refine ⟨?_, ?_⟩
          · intro n hn
            rcases List.mem_cons.mp hn with rfl | hn'
            · intro ch hch
              exact h2 acc hmd ch (List.mem_reverse.mp hch)
            · exact h1 n hn'
          · intro acc' h
            exact absurd h (by simp)
      · by_cases hw : wordChar c = true
        · have hstep : scanStep st c = { st with mode := some (c :: acc) } := by
            simp [scanStep, hstok, hmd, hbr, hw]
          rw [hstep]
          refine ⟨h1, ?_⟩
          intro acc' h
          injection h with h'
          subst h'
          intro ch hch
          rcases List.mem_cons.mp hch with rfl | hch'
          · exact hw
          · exact h2 acc hmd ch hch'
        · have hstep : scanStep st c = { st with ok := false } := by
            simp [scanStep, hstok, hmd, hbr, hw]
          rw [hstep]
          exact ⟨h1, fun acc' h => h2 acc' h⟩

/-- The scan only ever pushes group names made of word characters. -/
theorem foldl_scanStep_clean (t : List Char) :
    ∀ st : ScanSt,
      (∀ n ∈ params st.pieces, ∀ c ∈ n, wordChar c = true) →
      (∀ acc, st.mode = some acc → ∀ c ∈ acc, wordChar c = true) →
      ∀ n ∈ params (t.foldl scanStep st).pieces, ∀ c ∈ n, wordChar c = true := by
  induction t with
  | nil => intro st h1 _; exact h1
  | cons c t ih =>
    intro st h1 h2
    rw [List.foldl_cons]
    rcases scanStep_clean st c h1 h2 with ⟨h1', h2'⟩
    exact ih (scanStep st c) h1' h2'


/-- Inversion of a successful compilation. -/
theorem compileTemplate_inv {t : List Char} {r : List Piece}
    (h : compileTemplate t = some r) :
    (t.foldl scanStep ⟨true, none, []⟩).ok = true ∧
    (t.foldl scanStep ⟨true, none, []⟩).mode = none ∧
    (params r).Nodup ∧
    r = (t.foldl scanStep ⟨true, none, []⟩).pieces.reverse := by
  rw [compileTemplate] at h
  split at h
  · next hcond =>
    injection h with h'
    subst h'
    exact ⟨hcond.1, hcond.2.1, hcond.2.2, rfl⟩
  · exact absurd h (by simp)

/-- Group names of a compiled template are made of word characters. -/
theorem compile_clean {t : List Char} {r : List Piece}
    (h : compileTemplate t = some r) :
    ∀ n ∈ params r, ∀ c ∈ n, wordChar c = true := by
  rcases compileTemplate_inv h with ⟨-, -, -, hr⟩
  subst hr
  intro n hn
  rw [params_reverse] at hn
  exact foldl_scanStep_clean t ⟨true, none, []⟩ (by simp [params])
    (by simp) n (List.mem_reverse.mp hn)

/-- The regex text of a compiled template has exactly as many slashes as
the template: `route.parse` preserves the slash count, which is what
makes the depth check of `route.match` compare segment counts. -/
theorem compile_slash {t : List Char} {r : List Piece}
    (h : compileTemplate t = some r) :
    (rgxString r).count '/' = t.count '/' := by
  rcases compileTemplate_inv h with ⟨hok, hmode, -, hr⟩
  have hclean := compile_clean h
  have hbody := rgxBody_count r hclean
  have hslash := foldl_scanStep_slash t ⟨true, none, []⟩ hok
  simp only [litSlash] at hslash
  rw [rgxString, List.count_append, hbody, hr, litSlash_reverse, hslash]
  simp [List.count_cons]

/-- Appending a slash to a string matched by a group-final piece list
keeps it matched: the final one-or-more group absorbs the slash. -/
theorem matchesFull_concat_slash (q : List Piece) (n : List Char) (s : List Char)
    (h : matchesFull (q ++ [Piece.grp n]) s = true) :
    matchesFull (q ++ [Piece.grp n]) (s ++ ['/']) = true := by
  rcases (matchesFull_append q [Piece.grp n] s).mp h with ⟨u, v, rfl, hq, hv⟩
  rcases (matchesFull_grp_iff n [] v).mp hv with ⟨a, b, rfl, ha, hclean, hb⟩
  rcases matchesFull_nil_iff b |>.mp hb with rfl
  refine (matchesFull_append q [Piece.grp n] _).mpr
    ⟨u, (a ++ []) ++ ['/'], by simp, hq, ?_⟩
  refine (matchesFull_grp_iff n [] _).mpr
    ⟨(a ++ []) ++ ['/'], [], by simp, by simp, ?_, rfl⟩
  intro x hx
  rcases List.mem_append.mp hx with hx | hx
  · exact hclean x (by simpa using hx)
  · simp only [List.mem_singleton] at hx
    subst hx
    decide

/-- Removing the slash appended to a matched string, for piece lists
ending in a slash literal followed by a group, when the string itself
does not end in a slash: the capture loses its final slash, or, were
the capture the lone appended slash, the string would end in a slash. -/
theorem matchesFull_drop_slash (q : List Piece) (n : List Char) (s : List Char)
    (hlast : s.getLast? ≠ some '/')
    (h : matchesFull (q ++ [Piece.lit '/', Piece.grp n]) (s ++ ['/']) = true) :
    matchesFull (q ++ [Piece.lit '/', Piece.grp n]) s = true := by
  rcases (matchesFull_append q [Piece.lit '/', Piece.grp n] _).mp h with
    ⟨u, v, heq, hq, hv⟩
  rcases (matchesFull_lit_iff '/' [Piece.grp n] v).mp hv with ⟨v', rfl, hv'⟩
  rcases (matchesFull_grp_iff n [] v').mp hv' with ⟨a, b, rfl, ha, hclean, hb⟩
  rcases matchesFull_nil_iff b |>.mp hb with rfl
  simp only [List.append_nil] at heq
  have hlasta : a.getLast? = some '/' := by
    have h1 : (s ++ ['/']).getLast? = some '/' := List.getLast?_concat s
    rw [heq, List.getLast?_append_cons, show ('/' :: a) = ['/'] ++ a from rfl,
      List.getLast?_append_of_ne_nil _ ha] at h1
    exact h1
  have hsplit : a = a.dropLast ++ ['/'] :=
    (List.dropLast_append_getLast? '/' hlasta).symm
  rcases hdrop : a.dropLast with - | ⟨x, a'⟩
  · rw [hdrop] at hsplit
    simp only [List.nil_append] at hsplit
    subst hsplit
    have h2 : s ++ ['/'] = (u ++ ['/']) ++ ['/'] := by simpa using heq
    have hs : s = u ++ ['/'] := List.append_cancel_right h2
    rw [hs] at hlast
    exact absurd (List.getLast?_concat u) hlast
  · rw [hdrop] at hsplit
    have heq2 : s ++ ['/'] = (u ++ '/' :: (x :: a')) ++ ['/'] := by
      rw [heq, hsplit]
      simp
    have hs : s = u ++ '/' :: (x :: a') := List.append_cancel_right heq2
    refine (matchesFull_append q [Piece.lit '/', Piece.grp n] s).mpr
      ⟨u, '/' :: (x :: a'), hs, hq, ?_⟩
    refine (matchesFull_lit_iff '/' [Piece.grp n] _).mpr ⟨x :: a', rfl, ?_⟩
    refine (matchesFull_grp_iff n [] _).mpr ⟨x :: a', [], by simp, by simp, ?_, rfl⟩
    intro y hy
    refine hclean y ?_
    rw [hsplit]
    exact List.mem_append_left _ hy

/-- MatchString is insensitive to one appended slash for piece lists
ending in a slash literal followed by a group, on strings that do not
end in a slash. -/
theorem matchString_concat_slash (q : List Piece) (n : List Char) (p : List Char)
    (hlast : p.getLast? ≠ some '/') :
    matchString (q ++ [Piece.lit '/', Piece.grp n]) (p ++ ['/']) =
      matchString (q ++ [Piece.lit '/', Piece.grp n]) p := by
  have hfwd : matchString (q ++ [Piece.lit '/', Piece.grp n]) (p ++ ['/']) = true →
      matchString (q ++ [Piece.lit '/', Piece.grp n]) p = true := by
    intro h
    rcases (matchString_iff _ _).mp h with ⟨u, v, heq, hv⟩
    have hvne : v ≠ [] := by
      rintro rfl
      rw [matchesFull_ne_nil _ (by simp)] at hv
      exact absurd hv (by simp)
    have hvlast : v.getLast? = some '/' := by
      have h1 : (p ++ ['/']).getLast? = some '/' := List.getLast?_concat p
      rw [heq, List.getLast?_append_of_ne_nil _ hvne] at h1
      exact h1
    have hvsplit : v = v.dropLast ++ ['/'] :=
      (List.dropLast_append_getLast? '/' hvlast).symm
    have hp : p = u ++ v.dropLast := by
      have h2 : p ++ ['/'] = (u ++ v.dropLast) ++ ['/'] := by
        rw [heq]
        conv_lhs => rw [hvsplit]
        simp
      exact List.append_cancel_right h2
    have hdl : (v.dropLast).getLast? ≠ some '/' := by
      rcases hd : v.dropLast with - | ⟨x, v'⟩
      · simp
      · rw [← hd]
        rw [hp, List.getLast?_append_of_ne_nil _ (by simp [hd])] at hlast
        exact hlast
    have hm : matchesFull (q ++ [Piece.lit '/', Piece.grp n]) v.dropLast = true := by
      refine matchesFull_drop_slash q n v.dropLast hdl ?_
      rw [← hvsplit]
      exact hv
    exact (matchString_iff _ _).mpr ⟨u, v.dropLast, hp, hm⟩
  have hbwd : matchString (q ++ [Piece.lit '/', Piece.grp n]) p = true →
      matchString (q ++ [Piece.lit '/', Piece.grp n]) (p ++ ['/']) = true := by
    intro h
    rcases (matchString_iff _ _).mp h with ⟨u, v, rfl, hv⟩
    have hv' : matchesFull ((q ++ [Piece.lit '/']) ++ [Piece.grp n]) (v ++ ['/']) = true := by
      refine matchesFull_concat_slash (q ++ [Piece.lit '/']) n v ?_
      simpa using hv
    refine (matchString_iff _ _).mpr ⟨u, v ++ ['/'], by simp, ?_⟩
    simpa using hv'
  cases hL : matchString (q ++ [Piece.lit '/', Piece.grp n]) (p ++ ['/']) with
  | false =>
    cases hR : matchString (q ++ [Piece.lit '/', Piece.grp n]) p with
    | false => rfl
    | true => rw [hbwd hR] at hL; exact hL.symm
  | true =>
    exact (hfwd hL).symm

/-- The compiled pieces of the users template with one id parameter. -/
def usersTpl : List Piece :=
  [Piece.lit '/', Piece.lit 'u', Piece.lit 's', Piece.lit 'e', Piece.lit 'r',
   Piece.lit 's', Piece.lit '/', Piece.grp ['i', 'd']]

/-- The compiled pieces of the template with a single parameter segment
after the root slash. -/
def xTpl : List Piece :=
  [Piece.lit '/', Piece.grp ['x']]

/-- The compiled pieces of the literal template /a. -/
def aTpl : List Piece :=
  [Piece.lit '/', Piece.lit 'a']

/-- The compiled pieces of the svc template with one name parameter. -/
def svcTpl : List Piece :=
  [Piece.lit '/', Piece.lit 's', Piece.lit 'v', Piece.lit 'c', Piece.lit '/',
   Piece.grp ['n', 'a', 'm', 'e']]

/-- C1: for every successfully compiled route template and every
candidate request path whose trailing-slash-normalized segment count
differs from the segment count of the template, route.match returns
false: the depth conjunct of match compares exactly these counts, since
route.parse preserves the slash count of the template in the regex
text. -/
theorem route_match_depth (t : List Char) (r : List Piece) (p : List Char)
    (hc : compileTemplate t = some r)
    (hd : segCount (cutSuffix p) ≠ segCount t) :
    routeMatch r p = false := by
  have hs := compile_slash hc
  simp only [routeMatch]
  have hne : ((cutSuffix p).count '/' == (rgxString r).count '/') = false := by
    rw [beq_eq_false_iff_ne, hs]
    intro h
    exact hd (by rw [segCount, segCount, h])
  rw [hne, Bool.false_and]

/-- Witness for C1 at the users template and the deeper path with three
segments below the root. -/
theorem route_match_depth_w :
    compileTemplate "/users/{id}".toList = some usersTpl ∧
    segCount (cutSuffix "/users/123/profile".toList) ≠
      segCount "/users/{id}".toList ∧
    routeMatch usersTpl "/users/123/profile".toList = false :=
  ⟨by decide, by decide,
    route_match_depth "/users/{id}".toList usersTpl "/users/123/profile".toList
      (by decide) (by decide)⟩

/-- C3 counterexample: the path /users// does match the compiled
users template, because the final one-or-more group of the
regex absorbs the trailing slash of the raw URI; its capture is the
slash itself, so a parameter capture can both be reached from an empty
segment and contain a slash, contrary to the claim. -/
theorem empty_segment_cx :
    compileTemplate "/users/{id}".toList = some usersTpl ∧
    routeMatch usersTpl "/users//".toList = true ∧
    findSubmatch usersTpl "/users//".toList =
      some ("/users//".toList, [['/']]) := by
  refine ⟨by decide, by decide, by decide⟩

/-- C3 amended: whenever route.match accepts a path, the route regex
matches a suffix of the raw path with every parameter capturing at
least one character; the captures may however contain slashes, and a
path with an empty segment at a parameter position, such as /users//,
does match, with the parameter capturing the slash. -/
theorem match_nonempty_captures (t : List Char) (r : List Piece) (p : List Char)
    (hc : compileTemplate t = some r)
    (hm : routeMatch r p = true) :
    ∃ w caps, findSubmatch r p = some (w, caps) ∧ ∀ cp ∈ caps, cp ≠ [] := by
  have hms : matchString r p = true := by
    simp only [routeMatch, Bool.and_eq_true] at hm
    exact hm.2
  have hsome : (findSubmatch r p).isSome = true := by
    rw [findSubmatch_isSome]
    exact hms
  rcases hfs : findSubmatch r p with - | ⟨w, caps⟩
  · rw [hfs] at hsome
    exact absurd hsome (by simp)
  · exact ⟨w, caps, rfl,
      capturesFull_nonempty r w caps (findSubmatch_captures r p w caps hfs)⟩

/-- Witness for the amended C3 at the users template and a path with a
three-letter id. -/
theorem match_nonempty_captures_w :
    compileTemplate "/users/{id}".toList = some usersTpl ∧
    routeMatch usersTpl "/users/abc".toList = true ∧
    ∃ w caps, findSubmatch usersTpl "/users/abc".toList = some (w, caps) ∧
      ∀ cp ∈ caps, cp ≠ [] :=
  ⟨by decide, by decide,
    match_nonempty_captures "/users/{id}".toList usersTpl "/users/abc".toList
      (by decide) (by decide)⟩

/-- C4 counterexample: for the compiled template with one parameter, the
path // is accepted by route.match (the raw URI matches, with the group
capturing the final slash), yet decodeArgs returns the non-match result,
because after stripping the trailing slash the regex no longer matches:
matched = true does not imply a successful extraction. -/
theorem decode_roundtrip_cx :
    compileTemplate "/{x}".toList = some xTpl ∧
    routeMatch xTpl "//".toList = true ∧
    decodeArgs xTpl "//".toList = none := by
  refine ⟨by decide, by decide, by decide⟩

/-- C4 amended: for every compiled template and every path accepted by
route.match on which the regex also matches the trailing-slash-stripped
path, decodeArgs succeeds and returns the association of the unnamed
whole-match key to the whole matched text and of each declared
parameter name, in declaration order, to the substring captured at its
position; the key list is exactly the empty name followed by the
declared parameter names. -/
theorem decode_roundtrip (t : List Char) (r : List Piece) (p w : List Char)
    (caps : List (List Char))
    (hc : compileTemplate t = some r)
    (hm : routeMatch r p = true)
    (hf : findSubmatch r (cutSuffix p) = some (w, caps)) :
    decodeArgs r p = some (([], w) :: (params r).zip caps) ∧
    ((([], w) :: (params r).zip caps).map Prod.fst =
      ([] : List Char) :: params r) := by
  constructor
  · rw [decodeArgs, if_pos hm, hf]
    simp [subexpNames]
  · have hlen : caps.length = (params r).length :=
      capturesFull_length r w caps (findSubmatch_captures r (cutSuffix p) w caps hf)
    simp only [List.map_cons]
    rw [List.map_fst_zip (params r) caps (le_of_eq hlen.symm)]

/-- Witness for the amended C4 at the users template and a path with a
two-digit id. -/
theorem decode_roundtrip_w :
    compileTemplate "/users/{id}".toList = some usersTpl ∧
    routeMatch usersTpl "/users/42".toList = true ∧
    findSubmatch usersTpl (cutSuffix "/users/42".toList) =
      some ("/users/42".toList, [['4', '2']]) ∧
    (decodeArgs usersTpl "/users/42".toList =
      some (([], "/users/42".toList) ::
        (params usersTpl).zip [['4', '2']]) ∧
    ((([], "/users/42".toList) :: (params usersTpl).zip [['4', '2']]).map
      Prod.fst = ([] : List Char) :: params usersTpl)) :=
  ⟨by decide, by decide, by decide,
    decode_roundtrip "/users/{id}".toList usersTpl "/users/42".toList
      "/users/42".toList [['4', '2']] (by decide) (by decide) (by decide)⟩

/-- C5 counterexample: the literal template /a accepts the path /a but
rejects /a/ even though /a does not end in a slash: the depth conjunct
is computed on the normalized path, but the regex runs on the raw URI,
whose trailing slash cannot be matched by a regex ending in a literal.
Trailing-slash insensitivity therefore fails for this compiled
template. -/
theorem trailing_slash_cx :
    compileTemplate "/a".toList = some aTpl ∧
    "/a".toList.getLast? ≠ some '/' ∧
    routeMatch aTpl "/a".toList = true ∧
    routeMatch aTpl ("/a".toList ++ ['/']) = false := by
  refine ⟨by decide, by decide, by decide, by decide⟩

/-- C5 amended: for every compiled template whose final segment is a
parameter placeholder (its pieces end in a slash literal followed by a
group) and every path p without a trailing slash, match of p with one
appended slash equals match of p, and decodeArgs gives identical
results on both. -/
theorem trailing_slash_equiv (t : List Char) (r : List Piece)
    (q : List Piece) (n : List Char) (p : List Char)
    (hc : compileTemplate t = some r)
    (hshape : r = q ++ [Piece.lit '/', Piece.grp n])
    (hlast : p.getLast? ≠ some '/') :
    routeMatch r (p ++ ['/']) = routeMatch r p ∧
    decodeArgs r (p ++ ['/']) = decodeArgs r p := by
  subst hshape
  have hm : routeMatch (q ++ [Piece.lit '/', Piece.grp n]) (p ++ ['/']) =
      routeMatch (q ++ [Piece.lit '/', Piece.grp n]) p := by
    simp only [routeMatch, cutSuffix_concat, cutSuffix_of_not_slash p hlast,
      matchString_concat_slash q n p hlast]
  refine ⟨hm, ?_⟩
  simp only [decodeArgs, hm, cutSuffix_concat, cutSuffix_of_not_slash p hlast]

/-- Witness for the amended C5 at the svc template and a one-letter
name. -/
theorem trailing_slash_equiv_w :
    compileTemplate "/svc/{name}".toList = some svcTpl ∧
    (routeMatch svcTpl ("/svc/x".toList ++ ['/']) =
      routeMatch svcTpl "/svc/x".toList ∧
    decodeArgs svcTpl ("/svc/x".toList ++ ['/']) =
      decodeArgs svcTpl "/svc/x".toList) :=
  ⟨by decide,
    trailing_slash_equiv "/svc/{name}".toList svcTpl
      [Piece.lit '/', Piece.lit 's', Piece.lit 'v', Piece.lit 'c']
      ['n', 'a', 'm', 'e'] "/svc/x".toList (by decide) (by decide) (by decide)⟩

/-- C10: whenever decodeArgs succeeds, the returned mapping binds the
empty-string key to the full text matched by the route regex against
the trailing-slash-stripped path: the loop over SubexpNames starts at
index 0, whose name is empty and whose match entry is the whole
match. -/
theorem decode_whole_match (t : List Char) (r : List Piece) (p : List Char)
    (args : List (List Char × List Char))
    (hc : compileTemplate t = some r)
    (hd : decodeArgs r p = some args) :
    ∃ w caps, findSubmatch r (cutSuffix p) = some (w, caps) ∧
      args.lookup ([] : List Char) = some w := by
  rw [decodeArgs] at hd
  split at hd
  · rcases hfs : findSubmatch r (cutSuffix p) with - | ⟨w, caps⟩
    · rw [hfs] at hd
      exact absurd hd (by simp)
    · rw [hfs] at hd
      injection hd with h'
      subst h'
      refine ⟨w, caps, rfl, ?_⟩
      simp [subexpNames, List.lookup]
  · exact absurd hd (by simp)

/-- Witness for C10 at the users template and a path with a trailing
slash: the whole-match key holds the stripped path. -/
theorem decode_whole_match_w :
    compileTemplate "/users/{id}".toList = some usersTpl ∧
    decodeArgs usersTpl "/users/7/".toList =
      some [([], "/users/7".toList), (['i', 'd'], ['7'])] ∧
    ∃ w caps, findSubmatch usersTpl (cutSuffix "/users/7/".toList) =
      some (w, caps) ∧
      ([([], "/users/7".toList),
        (['i', 'd'], ['7'])] : List (List Char × List Char)).lookup
        ([] : List Char) = some w :=
  ⟨by decide, by decide,
    decode_whole_match "/users/{id}".toList usersTpl "/users/7/".toList
      [([], "/users/7".toList), (['i', 'd'], ['7'])] (by decide) (by decide)⟩

/-- Looking up the just-written client. -/
theorem setClient_lookup_self (rl : RateLimiter) (ip : String) (cl : client) :
    (setClient rl ip cl).clients ip = some cl := by
  simp [setClient]

/-- Looking up any other client after a write. -/
theorem setClient_lookup_other (rl : RateLimiter) (ip k : String) (cl : client)
    (h : ¬k = ip) : (setClient rl ip cl).clients k = rl.clients k := by
  simp [setClient, h]

/-- Writes do not change the limiter configuration. -/
theorem setClient_maxTokens (rl : RateLimiter) (ip : String) (cl : client) :
    (setClient rl ip cl).maxTokens = rl.maxTokens := rfl

/-- One Allow call does not change the limiter configuration. -/
theorem allow_maxTokens (rl : RateLimiter) (now : Int) (ip : String) :
    (allow rl now ip).2.maxTokens = rl.maxTokens := by
  rcases h : rl.clients ip with - | cl
  · simp [allow, h, setClient]
  · simp only [allow, h]
    split_ifs <;> rfl

/-- Auxiliary run lemma for the burst-then-deny scenario: from a state
whose entry for the client has j tokens and age t0, consecutive calls
keep admitting while tokens remain and deny at the bound when the last
call is still within the window of t0. -/
theorem allowRun_aux (K iv t0 : Int) (ip : String) :
    ∀ (ts : List Int) (rl : RateLimiter) (j : Int),
      rl.clients ip = some ⟨j, t0⟩ → rl.maxTokens = K → rl.interval = iv →
      1 ≤ j → j ≤ K →
      ts.length = (K - j).toNat + 1 →
      (∀ t ∈ ts, t - t0 ≤ iv) →
      allowRun rl ip ts = List.replicate (K - j).toNat true ++ [false] := by
  intro ts
  induction ts with
  | nil =>
    intro rl j _ _ _ _ _ hlen _
    simp at hlen
  | cons t ts ih =>
    intro rl j hcl hmx hiv h1 hj hlen hin
    by_cases hjK : j < K
    · have hstep : allow rl t ip = (true, setClient rl ip ⟨j + 1, t0⟩) := by
        simp only [allow, hcl]
        rw [if_pos (show (⟨j, t0⟩ : client).tokens < rl.maxTokens by
          rw [hmx]; exact hjK)]
      have hts0 : ts.length = (K - (j + 1)).toNat + 1 := by
        simp only [List.length_cons] at hlen
        omega
      have hrep : (K - j).toNat = (K - (j + 1)).toNat + 1 := by omega
      rw [allowRun, hstep]
      simp only
      rw [hrep, List.replicate_succ, List.cons_append]
      refine congrArg (List.cons true) ?_
      refine ih (setClient rl ip ⟨j + 1, t0⟩) (j + 1)
        (setClient_lookup_self rl ip ⟨j + 1, t0⟩) hmx hiv (by omega) (by omega)
        hts0 ?_
      intro t' ht'
      exact hin t' (List.mem_cons_of_mem t ht')
    · have hjeq : j = K := by omega
      subst hjeq
      have hts : ts = [] := by
        have hl0 : ts.length = 0 := by
          simp only [List.length_cons] at hlen
          omega
        exact List.length_eq_zero.mp hl0
      subst hts
      have hstep : allow rl t ip = (false, rl) := by
        simp only [allow, hcl]
        rw [if_neg (show ¬(⟨j, t0⟩ : client).tokens < rl.maxTokens by
          rw [hmx]; exact hjK)]
        rw [if_neg (show ¬t - (⟨j, t0⟩ : client).age > rl.interval by
          rw [hiv]
          have := hin t (by simp)
          simp only
          omega)]
      rw [allowRun, hstep]
      simp only [allowRun]
      have : (j - j).toNat = 0 := by omega
      rw [this]
      rfl

/-- C2 counterexample: the claimed branch guards diverge from the code
on reachable states.  With maxTokens zero, one Allow call reaches the
entry with one token and age zero, where none of the three claimed
admission guards holds (the client is known, its token count is neither
below nor equal to maxTokens), so the claimed otherwise branch
prescribes denial; yet an expired call is admitted, because the code
resets whenever the count is not below maxTokens.  And with capacity
K = 0, the first call, which the claim says is the denied K plus first
one, is admitted by the creation branch. -/
theorem allow_branches_cx :
    (runOps (newRateLimiter 0 10) [RLOp.allowAt 0 "f"]).clients "f" =
      some ⟨1, 0⟩ ∧
    ¬((1 : Int) < (newRateLimiter 0 10).maxTokens) ∧
    ¬((1 : Int) = (newRateLimiter 0 10).maxTokens) ∧
    (20 : Int) - 0 > (newRateLimiter 0 10).interval ∧
    (allow (runOps (newRateLimiter 0 10) [RLOp.allowAt 0 "f"]) 20 "f").1 =
      true ∧
    (allow (runOps (newRateLimiter 0 10) [RLOp.allowAt 0 "f"]) 20
        "f").2.clients "f" = some ⟨1, 20⟩ ∧
    allowRun (newRateLimiter 0 10) "g" [0] = [true] := by
  refine ⟨by decide, by decide, by decide, by decide, by decide, by decide,
    by decide⟩

/-- C2 amended: Allow follows the four branches of the code, stated
here without any restriction on the state: an unknown client gets an
entry with one token and age now and is admitted; a client with fewer
tokens than maxTokens has its count incremented and is admitted; a
client with at least maxTokens tokens (not only exactly maxTokens)
whose entry is older than the interval is reset to one token with age
now and admitted; a client with at least maxTokens tokens within the
interval is denied.  Consequently, for every capacity K of at least one
(at K = 0 the first call is still admitted), a fresh client is admitted
on its first K calls and denied on the K plus first when all calls fall
within the interval of the first. -/
theorem allow_branches :
    (∀ (rl : RateLimiter) (now : Int) (ip : String),
      (rl.clients ip = none →
        allow rl now ip = (true, setClient rl ip ⟨1, now⟩)) ∧
      (∀ cl, rl.clients ip = some cl → cl.tokens < rl.maxTokens →
        allow rl now ip = (true, setClient rl ip ⟨cl.tokens + 1, cl.age⟩)) ∧
      (∀ cl, rl.clients ip = some cl → rl.maxTokens ≤ cl.tokens →
        now - cl.age > rl.interval →
        allow rl now ip = (true, setClient rl ip ⟨1, now⟩)) ∧
      (∀ cl, rl.clients ip = some cl → rl.maxTokens ≤ cl.tokens →
        now - cl.age ≤ rl.interval →
        allow rl now ip = (false, rl))) ∧
    (∀ (K : Nat) (iv t0 : Int) (ip : String) (ts : List Int),
      1 ≤ K → ts.length = K → (∀ t ∈ ts, t - t0 ≤ iv) →
      allowRun (newRateLimiter (K : Int) iv) ip (t0 :: ts) =
        List.replicate K true ++ [false]) := by
  constructor
  · intro rl now ip
    refine ⟨?_, ?_, ?_, ?_⟩
    · intro h
      simp only [allow, h]
    · intro cl h hlt
      simp only [allow, h]
      rw [if_pos hlt]
    · intro cl h hge hgt
      simp only [allow, h]
      rw [if_neg (by omega : ¬cl.tokens < rl.maxTokens), if_pos hgt]
    · intro cl h hge hle
      simp only [allow, h]
      rw [if_neg (by omega : ¬cl.tokens < rl.maxTokens),
        if_neg (by omega : ¬now - cl.age > rl.interval)]
  · intro K iv t0 ip ts hK hlen hin
    have hstep : allow (newRateLimiter (K : Int) iv) t0 ip =
        (true, setClient (newRateLimiter (K : Int) iv) ip ⟨1, t0⟩) := by
      simp only [allow, newRateLimiter]
    rw [allowRun, hstep]
    simp only
    have hrK : K = ((K : Int) - 1).toNat + 1 := by omega
    conv_rhs => rw [hrK, List.replicate_succ, List.cons_append]
    refine congrArg (List.cons true) ?_
    exact allowRun_aux (K : Int) iv t0 ip ts _ 1
      (setClient_lookup_self _ ip ⟨1, t0⟩) rfl rfl (by omega)
      (by exact_mod_cast hK) (by omega) hin

/-- Witness for the amended C2: the creation branch admits an unknown
client, the reset branch admits an expired over-quota client, the
denial branch rejects one within the window, and with capacity two and
calls at times zero, one and two within an interval of ten, the run
admits twice and then denies. -/
theorem allow_branches_w :
    allow (newRateLimiter 2 10) 5 "a" =
      (true, setClient (newRateLimiter 2 10) "a" ⟨1, 5⟩) ∧
    allow (setClient (newRateLimiter 2 10) "a" ⟨2, 0⟩) 15 "a" =
      (true, setClient (setClient (newRateLimiter 2 10) "a" ⟨2, 0⟩) "a"
        ⟨1, 15⟩) ∧
    allow (setClient (newRateLimiter 2 10) "a" ⟨2, 0⟩) 8 "a" =
      (false, setClient (newRateLimiter 2 10) "a" ⟨2, 0⟩) ∧
    allowRun (newRateLimiter 2 10) "a" [0, 1, 2] =
      List.replicate 2 true ++ [false] :=
  ⟨(allow_branches.1 (newRateLimiter 2 10) 5 "a").1 rfl,
    (allow_branches.1 (setClient (newRateLimiter 2 10) "a" ⟨2, 0⟩) 15
        "a").2.2.1 ⟨2, 0⟩ (setClient_lookup_self _ _ _) (by decide) (by decide),
    (allow_branches.1 (setClient (newRateLimiter 2 10) "a" ⟨2, 0⟩) 8
        "a").2.2.2 ⟨2, 0⟩ (setClient_lookup_self _ _ _) (by decide) (by decide),
    allow_branches.2 2 10 0 "a" [1, 2] (by omega) rfl (by decide)⟩

/-- C6: the increment branch of Allow raises the token count and leaves
the age field untouched, and more generally an existing entry whose age
changes under an Allow call can only have gone through the window-reset
branch: lastSeen is written only on creation and on reset. -/
theorem allow_age_frame :
    (∀ (rl : RateLimiter) (now : Int) (ip : String) (cl : client),
      rl.clients ip = some cl → cl.tokens < rl.maxTokens →
      (allow rl now ip).2.clients ip = some ⟨cl.tokens + 1, cl.age⟩) ∧
    (∀ (rl : RateLimiter) (now : Int) (ip ip' : String) (cl' cl'' : client),
      rl.clients ip' = some cl' →
      (allow rl now ip).2.clients ip' = some cl'' →
      cl''.age ≠ cl'.age →
      ip' = ip ∧ ¬cl'.tokens < rl.maxTokens ∧ now - cl'.age > rl.interval ∧
        cl'' = ⟨1, now⟩) := by
  constructor
  · intro rl now ip cl h hlt
    simp only [allow, h]
    rw [if_pos hlt]
    exact setClient_lookup_self rl ip ⟨cl.tokens + 1, cl.age⟩
  · intro rl now ip ip' cl' cl'' h' hres hne
    by_cases hk : ip' = ip
    · subst hk
      rcases h : rl.clients ip' with - | cl
      · rw [h] at h'
        exact absurd h' (by simp)
      · rw [h] at h'
        injection h' with h'e
        subst h'e
        simp only [allow, h] at hres
        by_cases hlt : cl.tokens < rl.maxTokens
        · rw [if_pos hlt, setClient_lookup_self] at hres
          injection hres with he
          rw [← he] at hne
          exact absurd rfl hne
        · rw [if_neg hlt] at hres
          by_cases hgt : now - cl.age > rl.interval
          · rw [if_pos hgt, setClient_lookup_self] at hres
            injection hres with he
            exact ⟨rfl, hlt, hgt, he.symm⟩
          · rw [if_neg hgt] at hres
            simp only at hres
            rw [h] at hres
            injection hres with he
            rw [← he] at hne
            exact absurd rfl hne
    · rcases h : rl.clients ip with - | cl
      · simp only [allow, h] at hres
        rw [setClient_lookup_other _ _ _ _ hk, h'] at hres
        injection hres with he
        rw [← he] at hne
        exact absurd rfl hne
      · simp only [allow, h] at hres
        by_cases hlt : cl.tokens < rl.maxTokens
        · rw [if_pos hlt, setClient_lookup_other _ _ _ _ hk, h'] at hres
          injection hres with he
          rw [← he] at hne
          exact absurd rfl hne
        · rw [if_neg hlt] at hres
          by_cases hgt : now - cl.age > rl.interval
          · rw [if_pos hgt, setClient_lookup_other _ _ _ _ hk, h'] at hres
            injection hres with he
            rw [← he] at hne
            exact absurd rfl hne
          · rw [if_neg hgt] at hres
            simp only at hres
            rw [h'] at hres
            injection hres with he
            rw [← he] at hne
            exact absurd rfl hne

/-- Witness for C6: incrementing a one-token entry with capacity three
leaves its age zero, and the reset branch is the only age writer. -/
theorem allow_age_frame_w :
    (allow (setClient (newRateLimiter 3 10) "b" ⟨1, 0⟩) 4 "b").2.clients "b" =
      some ⟨1 + 1, 0⟩ :=
  (allow_age_frame.1 (setClient (newRateLimiter 3 10) "b" ⟨1, 0⟩) 4 "b" ⟨1, 0⟩
    (setClient_lookup_self _ _ _) (by decide))

/-- C9: one sweep tick at time now removes exactly the entries older
than the interval and keeps every younger entry unchanged; removal is
deletion, not reset. -/
theorem cleanup_evicts (rl : RateLimiter) (now : Int) (ip : String)
    (cl : client) (h : rl.clients ip = some cl) :
    (now - cl.age > rl.interval → (cleanupTick rl now).clients ip = none) ∧
    (now - cl.age ≤ rl.interval → (cleanupTick rl now).clients ip = some cl) := by
  constructor
  · intro hgt
    simp only [cleanupTick, h]
    rw [if_pos hgt]
  · intro hle
    simp only [cleanupTick, h]
    rw [if_neg (by omega : ¬now - cl.age > rl.interval)]

/-- Witness for C9: with an interval of ten, a sweep at time twenty
deletes an entry of age five and a sweep at time twelve keeps it. -/
theorem cleanup_evicts_w :
    (cleanupTick (setClient (newRateLimiter 1 10) "c" ⟨1, 5⟩) 20).clients "c" =
      none ∧
    (cleanupTick (setClient (newRateLimiter 1 10) "c" ⟨1, 5⟩) 12).clients "c" =
      some ⟨1, 5⟩ :=
  ⟨(cleanup_evicts (setClient (newRateLimiter 1 10) "c" ⟨1, 5⟩) 20 "c" ⟨1, 5⟩
      (setClient_lookup_self _ _ _)).1 (by decide),
    (cleanup_evicts (setClient (newRateLimiter 1 10) "c" ⟨1, 5⟩) 12 "c" ⟨1, 5⟩
      (setClient_lookup_self _ _ _)).2 (by decide)⟩

/-- C8 counterexample: the claim quantifies over any configured
maxTokens, but with maxTokens zero the very first Allow call creates an
entry with one token, violating tokens at most maxTokens in a reachable
state. -/
theorem token_bound_cx :
    (runOps (newRateLimiter 0 10) [RLOp.allowAt 0 "d"]).clients "d" =
      some ⟨1, 0⟩ ∧
    (newRateLimiter 0 10).maxTokens = 0 ∧
    ¬((1 : Int) ≤ 0) := by
  refine ⟨by decide, rfl, by decide⟩

/-- The reachability invariant of the limiter: positive capacity and
every entry holding between one and maxTokens tokens. -/
def rlInv (rl : RateLimiter) : Prop :=
  1 ≤ rl.maxTokens ∧
  ∀ ip cl, rl.clients ip = some cl → 1 ≤ cl.tokens ∧ cl.tokens ≤ rl.maxTokens

/-- Writing a within-bounds entry preserves the invariant. -/
theorem setClient_inv (rl : RateLimiter) (ip : String) (cl : client)
    (h : rlInv rl) (h1 : 1 ≤ cl.tokens) (h2 : cl.tokens ≤ rl.maxTokens) :
    rlInv (setClient rl ip cl) := by
  refine ⟨h.1, ?_⟩
  intro ip' cl' h'
  by_cases hk : ip' = ip
  · subst hk
    rw [setClient_lookup_self] at h'
    injection h' with he
    subst he
    exact ⟨h1, h2⟩
  · rw [setClient_lookup_other _ _ _ _ hk] at h'
    exact h.2 ip' cl' h'

/-- Allow preserves the invariant. -/
theorem allow_inv (rl : RateLimiter) (now : Int) (ip : String)
    (h : rlInv rl) : rlInv (allow rl now ip).2 := by
  rcases hip : rl.clients ip with - | cl
  · simp only [allow, hip]
    exact setClient_inv rl ip ⟨1, now⟩ h (by show (1 : Int) ≤ 1; omega) h.1
  · have hb := h.2 ip cl hip
    simp only [allow, hip]
    by_cases hlt : cl.tokens < rl.maxTokens
    · rw [if_pos hlt]
      exact setClient_inv rl ip _ h (by show 1 ≤ cl.tokens + 1; omega)
        (by show cl.tokens + 1 ≤ rl.maxTokens; omega)
    · rw [if_neg hlt]
      by_cases hgt : now - cl.age > rl.interval
      · rw [if_pos hgt]
        exact setClient_inv rl ip ⟨1, now⟩ h (by show (1 : Int) ≤ 1; omega) h.1
      · rw [if_neg hgt]
        exact h

/-- The sweep preserves the invariant. -/
theorem cleanupTick_inv (rl : RateLimiter) (now : Int)
    (h : rlInv rl) : rlInv (cleanupTick rl now) := by
  refine ⟨h.1, ?_⟩
  intro ip cl h'
  simp only [cleanupTick] at h'
  rcases hip : rl.clients ip with - | cl0
  · simp only [hip] at h'
    exact absurd h' (by simp)
  · simp only [hip] at h'
    by_cases hgt : now - cl0.age > rl.interval
    · rw [if_pos hgt] at h'
      exact absurd h' (by simp)
    · rw [if_neg hgt] at h'
      injection h' with he
      subst he
      exact h.2 ip cl0 hip

/-- Steps preserve the invariant. -/
theorem applyOp_inv (rl : RateLimiter) (op : RLOp)
    (h : rlInv rl) : rlInv (applyOp rl op) := by
  cases op with
  | allowAt now ip => exact allow_inv rl now ip h
  | sweepAt now => exact cleanupTick_inv rl now h

/-- Runs preserve the invariant. -/
theorem runOps_inv (ops : List RLOp) :
    ∀ rl : RateLimiter, rlInv rl → rlInv (runOps rl ops) := by
  induction ops with
  | nil => intro rl h; exact h
  | cons op ops ih =>
    intro rl h
    exact ih (applyOp rl op) (applyOp_inv rl op h)

/-- Steps do not change the limiter configuration. -/
theorem applyOp_maxTokens (rl : RateLimiter) (op : RLOp) :
    (applyOp rl op).maxTokens = rl.maxTokens := by
  cases op with
  | allowAt now ip => exact allow_maxTokens rl now ip
  | sweepAt now => rfl

/-- Runs do not change the limiter configuration. -/
theorem runOps_maxTokens (ops : List RLOp) :
    ∀ rl : RateLimiter, (runOps rl ops).maxTokens = rl.maxTokens := by
  induction ops with
  | nil => intro rl; rfl
  | cons op ops ih =>
    intro rl
    rw [runOps, ih, applyOp_maxTokens]

/-- C8 amended: provided maxTokens is at least one, every entry of every
limiter state reachable from the empty client map by Allow calls and
sweep ticks holds between zero and maxTokens tokens. -/
theorem token_bound_inv (mx iv : Int) (hmx : 1 ≤ mx) (ops : List RLOp)
    (ip : String) (cl : client)
    (h : (runOps (newRateLimiter mx iv) ops).clients ip = some cl) :
    0 ≤ cl.tokens ∧ cl.tokens ≤ mx := by
  have hinv : rlInv (runOps (newRateLimiter mx iv) ops) := by
    refine runOps_inv ops (newRateLimiter mx iv) ⟨hmx, ?_⟩
    intro ip' cl' h'
    simp [newRateLimiter] at h'
  have hb := hinv.2 ip cl h
  have hmax := runOps_maxTokens ops (newRateLimiter mx iv)
  rw [hmax] at hb
  exact ⟨by omega, hb.2⟩

/-- Witness for the amended C8: with capacity one, after an admit, a
denial and a sweep, the surviving entry holds one token within
bounds. -/
theorem token_bound_inv_w :
    (runOps (newRateLimiter 1 10)
        [RLOp.allowAt 0 "e", RLOp.allowAt 1 "e", RLOp.sweepAt 2]).clients "e" =
      some ⟨1, 0⟩ ∧
    (0 ≤ (1 : Int) ∧ (1 : Int) ≤ 1) :=
  ⟨by decide,
    token_bound_inv 1 10 (by omega)
      [RLOp.allowAt 0 "e", RLOp.allowAt 1 "e", RLOp.sweepAt 2] "e" ⟨1, 0⟩
      (by decide)⟩

/-- The route comparison of the overwrite loop is false for routes with
a different method or path. -/
theorem route_beq_false {α : Type} (r : route α) (m p : String)
    (hne : ¬(r.method = m ∧ r.path = p)) :
    (r.method == m && r.path == p) = false := by
  rcases not_and_or.mp hne with h1 | h1
  · simp [h1]
  · simp [h1]

/-- The overwrite loop reports no match when no route has the method
and path of the new route. -/
theorem replaceRoute_none {α : Type} (nr : route α) :
    ∀ routes : List (route α),
      (∀ r ∈ routes, ¬(r.method = nr.method ∧ r.path = nr.path)) →
      replaceRoute nr routes = none := by
  intro routes
  induction routes with
  | nil => intro _; rfl
  | cons r rs ih =>
    intro hall
    rw [replaceRoute]
    rw [route_beq_false r nr.method nr.path (hall r (by simp))]
    rw [if_neg (by simp), ih (fun r' hr' => hall r' (List.mem_cons_of_mem r hr'))]
    rfl

/-- The overwrite loop replaces the first route carrying the method and
path of the new route and keeps everything else. -/
theorem replaceRoute_split {α : Type} (nr : route α) (r₀ : route α)
    (hm : r₀.method = nr.method) (hp : r₀.path = nr.path) :
    ∀ pre post : List (route α),
      (∀ r ∈ pre, ¬(r.method = nr.method ∧ r.path = nr.path)) →
      replaceRoute nr (pre ++ r₀ :: post) = some (pre ++ nr :: post) := by
  intro pre
  induction pre with
  | nil =>
    intro post _
    rw [List.nil_append, replaceRoute]
    rw [if_pos (by simp [hm, hp])]
    rfl
  | cons r pre ih =>
    intro post hall
    rw [List.cons_append, replaceRoute]
    rw [route_beq_false r nr.method nr.path (hall r (by simp))]
    rw [if_neg (by simp),
      ih post (fun r' hr' => hall r' (List.mem_cons_of_mem r hr'))]
    rfl

/-- C7: registering an already present method and template pair with a
new handler replaces the old route in place, leaving the position, the
length and all other routes unchanged and exactly one route for the
pair; registering a fresh pair appends the new route at the end. -/
theorem handleFunc_register :
    (∀ (α : Type) (pre post : List (route α)) (r₀ : route α) (m p : String)
      (h : α) (rgx : List Piece),
      supportedMethods.contains m = true →
      compileTemplate p.toList = some rgx →
      r₀.method = m → r₀.path = p →
      (∀ r ∈ pre, ¬(r.method = m ∧ r.path = p)) →
      (∀ r ∈ post, ¬(r.method = m ∧ r.path = p)) →
      handleFunc (pre ++ r₀ :: post) m p h =
        (pre ++ (⟨m, p, rgx, h⟩ : route α) :: post, true) ∧
      ((pre ++ (⟨m, p, rgx, h⟩ : route α) :: post).countP
        (fun r => r.method == m && r.path == p)) = 1) ∧
    (∀ (α : Type) (routes : List (route α)) (m p : String) (h : α)
      (rgx : List Piece),
      supportedMethods.contains m = true →
      compileTemplate p.toList = some rgx →
      (∀ r ∈ routes, ¬(r.method = m ∧ r.path = p)) →
      handleFunc routes m p h = (routes ++ [⟨m, p, rgx, h⟩], true)) := by
  constructor
  · intro α pre post r₀ m p h rgx hsup hcomp hm hp hpre hpost
    constructor
    · simp only [handleFunc, hsup, hcomp, if_true]
      rw [replaceRoute_split (⟨m, p, rgx, h⟩ : route α) r₀ hm hp pre post hpre]
    · rw [List.countP_append, List.countP_cons]
      have h0 : pre.countP (fun r => r.method == m && r.path == p) = 0 := by
        rw [List.countP_eq_zero]
        intro r hr
        simp [route_beq_false r m p (hpre r hr)]
      have h1 : post.countP (fun r => r.method == m && r.path == p) = 0 := by
        rw [List.countP_eq_zero]
        intro r hr
        simp [route_beq_false r m p (hpost r hr)]
      simp [h0, h1]
  · intro α routes m p h rgx hsup hcomp hall
    simp only [handleFunc, hsup, hcomp, if_true]
    rw [replaceRoute_none (⟨m, p, rgx, h⟩ : route α) routes hall]

/-- The compiled pieces of the short template with one id parameter
below the u segment. -/
def uTpl : List Piece :=
  [Piece.lit '/', Piece.lit 'u', Piece.lit '/', Piece.grp ['i', 'd']]

/-- A registered route unrelated to the pair being re-registered. -/
def zRoute : route Nat :=
  ⟨"GET", "/z", [Piece.lit '/', Piece.lit 'z'], 7⟩

/-- The route being overwritten in the C7 witness. -/
def uRouteOld : route Nat :=
  ⟨"GET", "/u/{id}", uTpl, 1⟩

/-- The route that overwrites it, same pair, new handler. -/
def uRouteNew : route Nat :=
  ⟨"GET", "/u/{id}", uTpl, 2⟩

/-- Witness for C7: re-registering the pair replaces the second route in
place behind the unrelated first one, and registering the pair into a
table without it appends. -/
theorem handleFunc_register_w :
    (handleFunc [zRoute, uRouteOld] "GET" "/u/{id}" 2 =
        ([zRoute, uRouteNew], true) ∧
      ([zRoute, uRouteNew].countP
        (fun r => r.method == "GET" && r.path == "/u/{id}")) = 1) ∧
    handleFunc [zRoute] "GET" "/u/{id}" 2 = ([zRoute, uRouteNew], true) :=
  ⟨handleFunc_register.1 Nat [zRoute] [] uRouteOld "GET" "/u/{id}" 2 uTpl
      (by decide) (by decide) rfl rfl (by decide) (by decide),
    handleFunc_register.2 Nat [zRoute] "GET" "/u/{id}" 2 uTpl
      (by decide) (by decide) (by decide)⟩

end Apihandler
